import Mathlib

/-!
Shallow embedding of the Hack assembler (`hack-assemble.py`) and proofs about
the claims of its specification.

A source line is modelled as a list of characters; the symbol tables are
modelled as follows:

* the label table (`self.labels`, a dict written with plain assignment, so a
  redeclaration overwrites the stored value) is a function `Line → Option Nat`
  built by successive updates, which reproduces dict assignment exactly;
* the variable table (`self.variables`, a dict whose keys are only ever added
  when absent) is an association list searched front to back; new bindings are
  appended at the end, matching dict insertion order.  The predefined symbol
  values are decimal string literals in the source; they are only ever consumed
  by `int(...)`, so they are modelled as the corresponding naturals.

Whitespace removal models Python's `str.split()` on the ASCII whitespace
characters recognised by `Char.isWhitespace`, and `str.isdigit` / `int(...)`
are modelled on ASCII digit strings, which are the only operand texts that can
reach the corresponding code paths through the pipeline (every non-digit
operand has been given a table binding by `find_variables` beforehand).
-/

namespace Hack

/-- A normalized source line: a list of characters. -/
abbrev Line := List Char

/-- Convert a string literal to a `Line` (convenience for concrete programs). -/
def cl (s : String) : Line := s.toList

/-- Python `line.startswith(c)` for a single character. -/
def startsWith (c : Char) : Line → Bool
  | [] => false
  | x :: _ => x = c

/-- Python `line[1:-1]`: drop the first and the last character. -/
def stripEnds (l : Line) : Line := (l.drop 1).dropLast

/-- Python `s.isdigit()` on ASCII text: nonempty and all decimal digits. -/
def isDigits (s : Line) : Bool := !s.isEmpty && s.all Char.isDigit

/-- Decimal value of a digit string (what `int(s)` returns when `s.isdigit()`). -/
def natOfDigits (s : Line) : Nat := s.foldl (fun a c => 10 * a + (c.toNat - 48)) 0

/-- Python `int(s)` as used on operand texts, returning `none` where `int`
would raise on the operand strings reachable here (see the module comment). -/
def parseNat? (s : Line) : Option Nat := if isDigits s then some (natOfDigits s) else none

/-- Delete everything from the first occurrence of `//` onward
(`stripped.find("//")` followed by the slice `stripped[0:comment_start]`). -/
def cutComment : Line → Line
  | '/' :: '/' :: _ => []
  | c :: rest => c :: cutComment rest
  | [] => []

/-- `Assembler.remove_unnecessary`: remove all whitespace from each line, cut
the line at the first `//`, and drop lines that became empty. -/
def remove_unnecessary (code : List Line) : List Line :=
  code.filterMap (fun l =>
    let stripped := cutComment (l.filter (fun c => !c.isWhitespace))
    if stripped = [] then none else some stripped)

/-- Dict assignment `tbl[k] = v`: a functional update. -/
def upd (tbl : Line → Option Nat) (k : Line) (v : Nat) : Line → Option Nat :=
  fun s => if s = k then some v else tbl s

/-- Loop body of `Assembler.find_labels`: walk the lines keeping the current
instruction index; a line starting with `(` binds `line[1:-1]` to the current
index and is removed, every other line increments the index and is kept. -/
def find_labels_go : Nat → (Line → Option Nat) → List Line → (Line → Option Nat) × List Line
  | _, labels, [] => (labels, [])
  | cur, labels, l :: ls =>
    if startsWith '(' l then
      find_labels_go cur (upd labels (stripEnds l) cur) ls
    else
      let r := find_labels_go (cur + 1) labels ls
      (r.1, l :: r.2)

/-- `Assembler.find_labels`: starts at instruction index 0 with an empty label
table (`self.labels = {}`); returns the table and the label-free line list. -/
def find_labels (ls : List Line) : (Line → Option Nat) × List Line :=
  find_labels_go 0 (fun _ => none) ls

/-- Association-list lookup, first match wins (dict membership/lookup for
tables whose keys are never overwritten). -/
def alookup {β : Type} (t : List (Line × β)) (s : Line) : Option β :=
  match t with
  | [] => none
  | (k, v) :: r => if k = s then some v else alookup r s

/-- `Assembler.predefined_symbols` (values are decimal string literals in the
source, consumed only by `int`, modelled as naturals). -/
def predefined_symbols : List (Line × Nat) :=
  [(cl "R0", 0), (cl "R1", 1), (cl "R2", 2), (cl "R3", 3), (cl "R4", 4),
   (cl "R5", 5), (cl "R6", 6), (cl "R7", 7), (cl "R8", 8), (cl "R9", 9),
   (cl "R10", 10), (cl "R11", 11), (cl "R12", 12), (cl "R13", 13), (cl "R14", 14),
   (cl "R15", 15), (cl "SCREEN", 16384), (cl "KBD", 24576), (cl "SP", 0),
   (cl "LCL", 1), (cl "ARG", 2), (cl "THIS", 3), (cl "THAT", 4)]

/-- Loop of `Assembler.find_variables`: for every `@` line whose operand is not
all digits and is bound neither in the variable table nor in the label table,
bind it to the next free address (starting at 16) and bump the counter. -/
def find_variables_go (labels : Line → Option Nat) :
    List (Line × Nat) → Nat → List Line → List (Line × Nat)
  | vars, _, [] => vars
  | vars, next, l :: ls =>
    if startsWith '@' l then
      let s := l.drop 1
      if isDigits s then
        find_variables_go labels vars next ls
      else if (alookup vars s).isNone && (labels s).isNone then
        find_variables_go labels (vars ++ [(s, next)]) (next + 1) ls
      else
        find_variables_go labels vars next ls
    else
      find_variables_go labels vars next ls

/-- The intermediary instruction records built by `build_intermediary`:
`{"type": "A", "address": n}` or `{"type": "C", "dest": d, "comp": c, "jump": j}`. -/
inductive Instr where
  | A (address : Nat)
  | C (dest : Option Line) (comp : Line) (jump : Option Line)
  deriving DecidableEq

/-- One iteration of the `build_intermediary` loop on a single line: an `@`
line resolves its operand through the variable table first, then the label
table, then `int(...)`; any other line is split at the first `=` and the first
`;` into one of the four dest/comp/jump combinations. -/
def parse_line (vtable : List (Line × Nat)) (labels : Line → Option Nat)
    (l : Line) : Option Instr :=
  if startsWith '@' l then
    let address := l.drop 1
    match alookup vtable address with
    | some n => some (Instr.A n)
    | none =>
      match labels address with
      | some n => some (Instr.A n)
      | none => (parseNat? address).map Instr.A
  else
    match List.findIdx? (fun c => c = '=') l, List.findIdx? (fun c => c = ';') l with
    | none, none => some (Instr.C none l none)
    | some d, none => some (Instr.C (some (l.take d)) (l.drop (d + 1)) none)
    | none, some j => some (Instr.C none (l.take j) (some (l.drop (j + 1))))
    | some d, some j =>
      some (Instr.C (some (l.take d)) ((l.drop (d + 1)).take (j - (d + 1)))
        (some (l.drop (j + 1))))

/-- `Assembler.build_intermediary`: one intermediate record per line, in order;
`none` models the run aborting with an uncaught exception. -/
def build_intermediary (vtable : List (Line × Nat)) (labels : Line → Option Nat) :
    List Line → Option (List Instr)
  | [] => some []
  | l :: ls =>
    match parse_line vtable labels l, build_intermediary vtable labels ls with
    | some i, some rest => some (i :: rest)
    | _, _ => none

/-- `Assembler.comp_table` (keys may be `None` in the source, hence `Option Line`). -/
def comp_table : List (Option Line × Line) :=
  [(some (cl "0"), cl "0101010"), (some (cl "1"), cl "0111111"), (some (cl "-1"), cl "0111010"),
   (some (cl "D"), cl "0001100"), (some (cl "A"), cl "0110000"), (some (cl "M"), cl "1110000"),
   (some (cl "!D"), cl "0001101"), (some (cl "!A"), cl "0110001"), (some (cl "!M"), cl "1110001"),
   (some (cl "-D"), cl "0001111"), (some (cl "-A"), cl "0110011"), (some (cl "-M"), cl "1110011"),
   (some (cl "D+1"), cl "0011111"), (some (cl "A+1"), cl "0110111"), (some (cl "M+1"), cl "1110111"),
   (some (cl "D-1"), cl "0001110"), (some (cl "A-1"), cl "0110010"), (some (cl "M-1"), cl "1110010"),
   (some (cl "D+A"), cl "0000010"), (some (cl "D+M"), cl "1000010"), (some (cl "D-A"), cl "0010011"),
   (some (cl "D-M"), cl "1010011"), (some (cl "A-D"), cl "0000111"), (some (cl "M-D"), cl "1000111"),
   (some (cl "D&A"), cl "0000000"), (some (cl "D&M"), cl "1000000"), (some (cl "D|A"), cl "0010101"),
   (some (cl "D|M"), cl "1010101"), (none, cl "0000000")]

/-- `Assembler.jump_table`. -/
def jump_table : List (Option Line × Line) :=
  [(none, cl "000"), (some (cl "JGT"), cl "001"), (some (cl "JEQ"), cl "010"),
   (some (cl "JGE"), cl "011"), (some (cl "JLT"), cl "100"), (some (cl "JNE"), cl "101"),
   (some (cl "JLE"), cl "110"), (some (cl "JMP"), cl "111")]

/-- `Assembler.dest_table`. -/
def dest_table : List (Option Line × Line) :=
  [(none, cl "000"), (some (cl "M"), cl "001"), (some (cl "D"), cl "010"),
   (some (cl "MD"), cl "011"), (some (cl "A"), cl "100"), (some (cl "AM"), cl "101"),
   (some (cl "AD"), cl "110"), (some (cl "ADM"), cl "111")]

/-- Table lookup with `Option Line` keys (dict indexing; `none` models the
`KeyError` that aborts the run). -/
def tlookup (t : List (Option Line × Line)) (k : Option Line) : Option Line :=
  match t with
  | [] => none
  | (key, v) :: r => if key = k then some v else tlookup r k

/-- Minimal binary digits of `n`, most significant first (`bin(n)` without the
`0b` prefix, for `n > 0`); the first argument is fuel making the halving
recursion structural, `toBinCore n n` is exact for every `n`. -/
def toBinCore : Nat → Nat → List Char
  | 0, _ => []
  | fuel + 1, n =>
    if n = 0 then []
    else toBinCore fuel (n / 2) ++ [if n % 2 = 1 then '1' else '0']

/-- Binary digits of `n`, most significant first, `['0']` for zero (Python
`bin(n)[2:]`). -/
def toBin (n : Nat) : List Char := if n = 0 then ['0'] else toBinCore n n

/-- `Assembler.get_binary_string(i, n)`: `format(i, "#0" + str(n+2) + "b")[2:]`,
the binary digits of `i` zero-padded on the left to width `n` (never
truncated when `i` needs more than `n` digits). -/
def get_binary_string (i n : Nat) : Line :=
  let s := toBin i
  List.replicate (n - s.length) '0' ++ s

/-- One iteration of the `Assembler.assemble` loop: an address instruction
becomes `"0"` plus a 15-wide binary string; a compute instruction becomes
`"111"` plus the comp, dest and jump table entries (`none` models the
`KeyError` on an unknown mnemonic, which aborts the run). -/
def encode_instr : Instr → Option Line
  | Instr.A n => some ('0' :: get_binary_string n 15)
  | Instr.C d c j =>
    match tlookup dest_table d, tlookup comp_table (some c), tlookup jump_table j with
    | some db, some cb, some jb => some ('1' :: '1' :: '1' :: (cb ++ db ++ jb))
    | _, _, _ => none

/-- `Assembler.assemble`: encode every intermediate record, in order. -/
def assemble : List Instr → Option (List Line)
  | [] => some []
  | i :: rest =>
    match encode_instr i, assemble rest with
    | some l, some out => some (l :: out)
    | _, _ => none

/-- The label table the pipeline builds for an input program. -/
def labelsOf (code : List Line) : Line → Option Nat :=
  (find_labels (remove_unnecessary code)).1

/-- The label-free line list of an input program. -/
def labelFreeOf (code : List Line) : List Line :=
  (find_labels (remove_unnecessary code)).2

/-- The final variable table of an input program (predefined symbols seeded by
`Assembler.predefined_symbols.copy()`, then `find_variables` from address 16). -/
def variablesOf (code : List Line) : List (Line × Nat) :=
  find_variables_go (labelsOf code) predefined_symbols 16 (labelFreeOf code)

/-- The intermediate instruction list of an input program. -/
def intermediateOf (code : List Line) : Option (List Instr) :=
  build_intermediary (variablesOf code) (labelsOf code) (labelFreeOf code)

/-- The whole `Assembler.__init__` pipeline: normalized lines, label table,
variable table, intermediate records, machine code lines (`none` models an
aborted run that produces no output). -/
def assembler (code : List Line) : Option (List Line) :=
  (intermediateOf code).bind assemble

/-- `Assembler.get_machine_code` applied to a run: the output lines joined by
newlines. -/
def get_machine_code (code : List Line) : Option Line :=
  (assembler code).map (List.intercalate [Char.ofNat 10])

/-- Decoder for the round-trip claims: read a line of `0`/`1` characters as an
unsigned most-significant-bit-first binary numeral. -/
def fromBin (l : Line) : Nat := l.foldl (fun a c => 2 * a + (if c = '1' then 1 else 0)) 0

/-- `l` is a declaration of the label `L`: it starts with `(` and stripping its
first and last characters yields `L`. -/
def declOf (L : Line) (l : Line) : Bool := startsWith '(' l && decide (stripEnds l = L)

/-- Consecutive addresses starting at `next`, one per name (specification-side
description of the variable pass's allocation). -/
def assignFrom : Nat → List Line → List (Line × Nat)
  | _, [] => []
  | next, x :: xs => (x, next) :: assignFrom (next + 1) xs

/-- Keep the first occurrence of each name not yet seen (specification-side
description of "first-occurrence order"). -/
def firstDedupAux : List Line → List Line → List Line
  | _, [] => []
  | seen, x :: xs =>
    if x ∈ seen then firstDedupAux seen xs
    else x :: firstDedupAux (x :: seen) xs

/-- The sequence of address-instruction operands of `ls` that are candidates
for variable allocation: non-digit operands of `@` lines with no label binding
(specification-side description; predefined symbols are excluded via the
seen-set of `firstDedupAux`). -/
def opSeq (labels : Line → Option Nat) : List Line → List Line
  | [] => []
  | l :: ls =>
    if startsWith '@' l && !(isDigits (l.drop 1)) && (labels (l.drop 1)).isNone then
      l.drop 1 :: opSeq labels ls
    else opSeq labels ls

/-- The address operand of an instruction fits in 15 bits (trivially true for
compute instructions); decidable side condition for the output-shape claim. -/
def addrFits : Instr → Bool
  | Instr.A n => decide (n ≤ 32767)
  | Instr.C _ _ _ => true

/-- Modelled from the spec: a line is an instance of one of the four
recognized compute-instruction shapes (bare comp, dest=comp, comp;jump,
dest=comp;jump) when the fields obtained by splitting at the first `=` and the
first `;` are valid mnemonics of the fixed encoding tables. -/
def spec_recognized_shape (l : Line) : Bool :=
  match List.findIdx? (fun c => c = '=') l, List.findIdx? (fun c => c = ';') l with
  | none, none => (tlookup comp_table (some l)).isSome
  | some d, none =>
    (tlookup dest_table (some (l.take d))).isSome &&
      (tlookup comp_table (some (l.drop (d + 1)))).isSome
  | none, some j =>
    (tlookup comp_table (some (l.take j))).isSome &&
      (tlookup jump_table (some (l.drop (j + 1)))).isSome
  | some d, some j =>
    (tlookup dest_table (some (l.take d))).isSome &&
      (tlookup comp_table (some ((l.drop (d + 1)).take (j - (d + 1))))).isSome &&
      (tlookup jump_table (some (l.drop (j + 1)))).isSome

/-! Lemmas about table lookup. -/

theorem alookup_append_left {β : Type} {t₁ t₂ : List (Line × β)} {s : Line} {v : β}
    (h : alookup t₁ s = some v) : alookup (t₁ ++ t₂) s = some v := by
  induction t₁ with
  | nil => simp [alookup] at h
  | cons p r ih =>
    obtain ⟨k, w⟩ := p
    by_cases hk : k = s
    · simpa [alookup, hk] using h
    · simp only [alookup, if_neg hk] at h ⊢
      exact ih h

theorem alookup_append_right {β : Type} {t₁ : List (Line × β)} {s : Line}
    (h : alookup t₁ s = none) (t₂ : List (Line × β)) :
    alookup (t₁ ++ t₂) s = alookup t₂ s := by
  induction t₁ with
  | nil => simp [alookup]
  | cons p r ih =>
    obtain ⟨k, w⟩ := p
    by_cases hk : k = s
    · simp [alookup, hk] at h
    · simp only [alookup, if_neg hk] at h ⊢
      exact ih h

theorem alookup_eq_none {β : Type} {t : List (Line × β)} {s : Line} :
    alookup t s = none ↔ s ∉ t.map Prod.fst := by
  induction t with
  | nil => simp [alookup]
  | cons p r ih =>
    obtain ⟨k, w⟩ := p
    by_cases hk : k = s
    · subst hk
      simp only [alookup, if_pos rfl, List.map_cons, List.mem_cons]
      constructor
      · intro h
        exact absurd h (by simp)
      · intro h
        exact absurd (Or.inl trivial) h
    · simp only [alookup, if_neg hk, List.map_cons, List.mem_cons, ih]
      constructor
      · intro h hm
        rcases hm with hm | hm
        · exact hk hm.symm
        · exact h hm
      · intro h hm
        exact h (Or.inr hm)

theorem alookup_mem {β : Type} {t : List (Line × β)} {s : Line} {v : β}
    (h : alookup t s = some v) : (s, v) ∈ t := by
  induction t with
  | nil => simp [alookup] at h
  | cons p r ih =>
    obtain ⟨k, w⟩ := p
    by_cases hk : k = s
    · simp only [alookup, if_pos hk] at h
      subst hk
      obtain rfl : w = v := Option.some.inj h
      exact List.mem_cons_self _ _
    · simp only [alookup, if_neg hk] at h
      exact List.mem_cons_of_mem _ (ih h)

theorem alookup_isSome_iff_mem {β : Type} {t : List (Line × β)} {s : Line} :
    (alookup t s).isSome = true ↔ s ∈ t.map Prod.fst := by
  rcases h : alookup t s with _ | v
  · simp [alookup_eq_none.1 h]
  · simp only [Option.isSome_some, true_iff]
    exact List.mem_map_of_mem Prod.fst (alookup_mem h)

theorem tlookup_mem {t : List (Option Line × Line)} {k : Option Line} {v : Line}
    (h : tlookup t k = some v) : (k, v) ∈ t := by
  induction t with
  | nil => simp [tlookup] at h
  | cons p r ih =>
    obtain ⟨key, w⟩ := p
    by_cases hk : key = k
    · simp only [tlookup, if_pos hk] at h
      subst hk
      obtain rfl : w = v := Option.some.inj h
      exact List.mem_cons_self _ _
    · simp only [tlookup, if_neg hk] at h
      exact List.mem_cons_of_mem _ (ih h)

/-! Lemmas about the binary rendering `toBin` / `get_binary_string`. -/

theorem fromBin_append_singleton (xs : List Char) (c : Char) :
    fromBin (xs ++ [c]) = 2 * fromBin xs + (if c = '1' then 1 else 0) := by
  simp [fromBin, List.foldl_append]

theorem fromBin_toBinCore : ∀ fuel n, n ≤ fuel → fromBin (toBinCore fuel n) = n := by
  intro fuel
  induction fuel with
  | zero =>
    intro n hn
    interval_cases n
    simp [toBinCore, fromBin]
  | succ fuel ih =>
    intro n hn
    by_cases h0 : n = 0
    · simp [toBinCore, h0, fromBin]
    · have hdiv : n / 2 ≤ fuel := by omega
      have := ih (n / 2) hdiv
      simp only [toBinCore, if_neg h0, fromBin_append_singleton, this]
      rcases Nat.mod_two_eq_zero_or_one n with h | h <;> simp [h] <;> omega

theorem toBinCore_length_le : ∀ fuel n k, n < 2 ^ k → (toBinCore fuel n).length ≤ k := by
  intro fuel
  induction fuel with
  | zero => intro n k _; simp [toBinCore]
  | succ fuel ih =>
    intro n k hn
    by_cases h0 : n = 0
    · simp [toBinCore, h0]
    · have hk : k ≠ 0 := by
        intro hk0
        subst hk0
        omega
      have hdiv : n / 2 < 2 ^ (k - 1) := by
        have h2 : 2 ^ k = 2 * 2 ^ (k - 1) := by
          conv_lhs => rw [show k = (k - 1) + 1 by omega]
          ring
        omega
      have := ih (n / 2) (k - 1) hdiv
      simp only [toBinCore, if_neg h0, List.length_append, List.length_singleton]
      omega

theorem lt_two_pow_toBinCore_length : ∀ fuel n, n ≤ fuel → n < 2 ^ (toBinCore fuel n).length := by
  intro fuel
  induction fuel with
  | zero =>
    intro n hn
    interval_cases n
    simp [toBinCore]
  | succ fuel ih =>
    intro n hn
    by_cases h0 : n = 0
    · simp [toBinCore, h0]
    · have hdiv : n / 2 ≤ fuel := by omega
      have := ih (n / 2) hdiv
      simp only [toBinCore, if_neg h0, List.length_append, List.length_singleton]
      have h2 : 2 ^ ((toBinCore fuel (n / 2)).length + 1) =
          2 * 2 ^ (toBinCore fuel (n / 2)).length := by ring
      omega

theorem toBinCore_chars : ∀ fuel n c, c ∈ toBinCore fuel n → c = '0' ∨ c = '1' := by
  intro fuel
  induction fuel with
  | zero => intro n c hc; simp [toBinCore] at hc
  | succ fuel ih =>
    intro n c hc
    by_cases h0 : n = 0
    · simp [toBinCore, h0] at hc
    · simp only [toBinCore, if_neg h0, List.mem_append, List.mem_singleton] at hc
      rcases hc with hc | hc
      · exact ih (n / 2) c hc
      · subst hc
        rcases Nat.mod_two_eq_zero_or_one n with h | h <;> simp [h]

theorem fromBin_toBin (n : Nat) : fromBin (toBin n) = n := by
  by_cases h0 : n = 0
  · simp [toBin, h0, fromBin]
  · simp only [toBin, if_neg h0]
    exact fromBin_toBinCore n n le_rfl

theorem toBin_length_le {n k : Nat} (hn : n < 2 ^ k) (hk : 0 < k) : (toBin n).length ≤ k := by
  by_cases h0 : n = 0
  · simp [toBin, h0]
    omega
  · simp only [toBin, if_neg h0]
    exact toBinCore_length_le n n k hn

theorem toBin_length_ge {n k : Nat} (hn : 2 ^ k ≤ n) : k < (toBin n).length := by
  have h0 : n ≠ 0 := by
    have := Nat.one_le_two_pow (n := k)
    omega
  simp only [toBin, if_neg h0]
  have h1 : n < 2 ^ (toBinCore n n).length := lt_two_pow_toBinCore_length n n le_rfl
  have h2 : 2 ^ k < 2 ^ (toBinCore n n).length := lt_of_le_of_lt hn h1
  exact (Nat.pow_lt_pow_iff_right (by omega)).1 h2

theorem toBin_chars {n : Nat} {c : Char} (hc : c ∈ toBin n) : c = '0' ∨ c = '1' := by
  by_cases h0 : n = 0
  · simp [toBin, h0] at hc
    simp [hc]
  · simp only [toBin, if_neg h0] at hc
    exact toBinCore_chars n n c hc

theorem fromBin_replicate_zero_append (k : Nat) (s : List Char) :
    fromBin (List.replicate k '0' ++ s) = fromBin s := by
  have hz : ∀ m, (List.replicate m '0').foldl
      (fun a c => 2 * a + (if c = '1' then 1 else 0)) 0 = 0 := by
    intro m
    induction m with
    | zero => simp
    | succ m ih => simpa [List.replicate_succ] using ih
  simp [fromBin, List.foldl_append, hz k]

theorem get_binary_string_length {n : Nat} (hn : n < 2 ^ 15) :
    (get_binary_string n 15).length = 15 := by
  have h := toBin_length_le hn (by omega)
  simp only [get_binary_string, List.length_append, List.length_replicate]
  omega

theorem get_binary_string_chars {n w : Nat} {c : Char} (hc : c ∈ get_binary_string n w) :
    c = '0' ∨ c = '1' := by
  simp only [get_binary_string, List.mem_append, List.mem_replicate] at hc
  rcases hc with hc | hc
  · exact Or.inl hc.2
  · exact toBin_chars hc

theorem fromBin_get_binary_string (n w : Nat) : fromBin (get_binary_string n w) = n := by
  simp [get_binary_string, fromBin_replicate_zero_append, fromBin_toBin]

theorem get_binary_string_length_ge {n : Nat} (hn : 2 ^ 15 ≤ n) :
    17 ≤ ('0' :: get_binary_string n 15).length := by
  have h := toBin_length_ge hn
  simp only [get_binary_string, List.length_cons, List.length_append, List.length_replicate]
  omega

/-! Lemmas about the label pass. -/

theorem find_labels_go_snd : ∀ (ls : List Line) (cur : Nat) (tbl : Line → Option Nat),
    (find_labels_go cur tbl ls).2 = ls.filter (fun l => !(startsWith '(' l)) := by
  intro ls
  induction ls with
  | nil => intro cur tbl; simp [find_labels_go]
  | cons l t ih =>
    intro cur tbl
    by_cases h : startsWith '(' l = true
    · simp [find_labels_go, h, List.filter_cons, ih]
    · simp only [Bool.not_eq_true] at h
      simp [find_labels_go, h, List.filter_cons, ih]

theorem find_labels_go_fst_isSome_mono :
    ∀ (ls : List Line) (cur : Nat) (tbl : Line → Option Nat) (s : Line),
    (tbl s).isSome = true → (((find_labels_go cur tbl ls).1) s).isSome = true := by
  intro ls
  induction ls with
  | nil => intro cur tbl s h; simpa [find_labels_go] using h
  | cons l t ih =>
    intro cur tbl s h
    by_cases hl : startsWith '(' l = true
    · simp only [find_labels_go, if_pos hl]
      apply ih
      by_cases hs : s = stripEnds l
      · simp [upd, hs]
      · simpa [upd, hs] using h
    · simp only [Bool.not_eq_true] at hl
      simp only [find_labels_go, hl, Bool.false_eq_true, if_false]
      exact ih t.length tbl s h ▸ ih (cur + 1) tbl s h

theorem find_labels_go_decl_isSome :
    ∀ (ls : List Line) (cur : Nat) (tbl : Line → Option Nat) (l : Line),
    l ∈ ls → startsWith '(' l = true →
    (((find_labels_go cur tbl ls).1) (stripEnds l)).isSome = true := by
  intro ls
  induction ls with
  | nil => intro cur tbl l hm; simp at hm
  | cons h t ih =>
    intro cur tbl l hm hl
    rcases List.mem_cons.1 hm with rfl | hm
    · simp only [find_labels_go, if_pos hl]
      apply find_labels_go_fst_isSome_mono
      simp [upd]
    · by_cases hh : startsWith '(' h = true
      · simp only [find_labels_go, if_pos hh]
        exact ih cur _ l hm hl
      · simp only [Bool.not_eq_true] at hh
        simp only [find_labels_go, hh, Bool.false_eq_true, if_false]
        exact ih (cur + 1) tbl l hm hl

theorem find_labels_go_no_decl :
    ∀ (ls : List Line) (cur : Nat) (tbl : Line → Option Nat) (L : Line),
    ls.countP (declOf L) = 0 → ((find_labels_go cur tbl ls).1) L = tbl L := by
  intro ls
  induction ls with
  | nil => intro cur tbl L _; simp [find_labels_go]
  | cons h t ih =>
    intro cur tbl L hc
    rw [List.countP_cons] at hc
    have hdh : declOf L h = false := by
      by_cases hb : declOf L h = true
      · rw [if_pos hb] at hc
        omega
      · simpa using hb
    have hct : t.countP (declOf L) = 0 := by
      rw [hdh] at hc
      simpa using hc
    by_cases hh : startsWith '(' h = true
    · have hne : stripEnds h ≠ L := by
        intro he
        rw [declOf, hh, he] at hdh
        simp at hdh
      simp only [find_labels_go, if_pos hh]
      rw [ih cur _ L hct]
      simp only [upd]
      rw [if_neg (fun he => hne he.symm)]
    · simp only [Bool.not_eq_true] at hh
      simp only [find_labels_go, hh, Bool.false_eq_true, if_false]
      exact ih (cur + 1) tbl L hct

theorem find_labels_go_unique_decl :
    ∀ (ls : List Line) (i : Nat) (cur : Nat) (tbl : Line → Option Nat) (l L : Line),
    ls.get? i = some l → startsWith '(' l = true → stripEnds l = L →
    ls.countP (declOf L) = 1 →
    ((find_labels_go cur tbl ls).1) L =
      some (cur + (ls.take i).countP (fun x => !(startsWith '(' x))) := by
  intro ls
  induction ls with
  | nil => intro i cur tbl l L hg; simp at hg
  | cons h t ih =>
    intro i cur tbl l L hg hl hs hc
    rw [List.countP_cons] at hc
    cases i with
    | zero =>
      obtain rfl : h = l := by simpa using hg
      have hdh : declOf L h = true := by simp [declOf, hl, hs]
      rw [hdh, if_pos rfl] at hc
      have hct : t.countP (declOf L) = 0 := by omega
      simp only [find_labels_go, if_pos hl]
      rw [find_labels_go_no_decl t cur _ L hct]
      simp [upd, hs]
    | succ j =>
      have hgt : t.get? j = some l := by simpa using hg
      have hmem : l ∈ t := List.get?_mem hgt
      have hdl : declOf L l = true := by simp [declOf, hl, hs]
      have hpos : 0 < t.countP (declOf L) :=
        List.countP_pos_iff.2 ⟨l, hmem, hdl⟩
      have hdh : declOf L h = false := by
        by_cases hb : declOf L h = true
        · rw [if_pos hb] at hc
          omega
        · simpa using hb
      have hct : t.countP (declOf L) = 1 := by
        rw [hdh] at hc
        simp only [Bool.false_eq_true, if_false] at hc
        omega
      by_cases hh : startsWith '(' h = true
      · simp only [find_labels_go, if_pos hh]
        rw [ih j cur _ l L hgt hl hs hct]
        simp [List.take_succ_cons, List.countP_cons, hh]
      · simp only [Bool.not_eq_true] at hh
        simp only [find_labels_go, hh, Bool.false_eq_true, if_false]
        rw [ih j (cur + 1) tbl l L hgt hl hs hct]
        have : ((h :: t).take (j + 1)).countP (fun x => !(startsWith '(' x)) =
            (t.take j).countP (fun x => !(startsWith '(' x)) + 1 := by
          simp [List.take_succ_cons, List.countP_cons, hh]
        rw [this]
        congr 1
        omega

/-! Lemmas about the variable pass. -/

theorem assignFrom_map_fst : ∀ (next : Nat) (xs : List Line),
    (assignFrom next xs).map Prod.fst = xs := by
  intro next xs
  induction xs generalizing next with
  | nil => simp [assignFrom]
  | cons x t ih => simp [assignFrom, ih]

theorem assignFrom_map_snd : ∀ (next : Nat) (xs : List Line),
    (assignFrom next xs).map Prod.snd = List.range' next xs.length := by
  intro next xs
  induction xs generalizing next with
  | nil => simp [assignFrom]
  | cons x t ih => simp [assignFrom, List.range'_succ, ih]

theorem assignFrom_length : ∀ (next : Nat) (xs : List Line),
    (assignFrom next xs).length = xs.length := by
  intro next xs
  induction xs generalizing next with
  | nil => simp [assignFrom]
  | cons x t ih => simp [assignFrom, ih]

theorem firstDedupAux_congr : ∀ (l : List Line) (s₁ s₂ : List Line),
    (∀ x, x ∈ s₁ ↔ x ∈ s₂) → firstDedupAux s₁ l = firstDedupAux s₂ l := by
  intro l
  induction l with
  | nil => intro s₁ s₂ _; simp [firstDedupAux]
  | cons x t ih =>
    intro s₁ s₂ hiff
    by_cases hx : x ∈ s₁
    · rw [firstDedupAux, firstDedupAux, if_pos hx, if_pos ((hiff x).1 hx)]
      exact ih s₁ s₂ hiff
    · rw [firstDedupAux, firstDedupAux, if_neg hx, if_neg (fun hm => hx ((hiff x).2 hm))]
      congr 1
      apply ih
      intro y
      simp only [List.mem_cons]
      constructor
      · intro hy
        rcases hy with hy | hy
        · exact Or.inl hy
        · exact Or.inr ((hiff y).1 hy)
      · intro hy
        rcases hy with hy | hy
        · exact Or.inl hy
        · exact Or.inr ((hiff y).2 hy)

theorem mem_firstDedupAux_not_seen : ∀ (l seen : List Line) (x : Line),
    x ∈ firstDedupAux seen l → x ∉ seen := by
  intro l
  induction l with
  | nil => intro seen x hx; simp [firstDedupAux] at hx
  | cons h t ih =>
    intro seen x hx
    by_cases hh : h ∈ seen
    · rw [firstDedupAux, if_pos hh] at hx
      exact ih seen x hx
    · rw [firstDedupAux, if_neg hh] at hx
      rcases List.mem_cons.1 hx with rfl | hx
      · exact hh
      · intro hxs
        exact ih (h :: seen) x hx (List.mem_cons_of_mem h hxs)

theorem mem_firstDedupAux_sub : ∀ (l seen : List Line) (x : Line),
    x ∈ firstDedupAux seen l → x ∈ l := by
  intro l
  induction l with
  | nil => intro seen x hx; simp [firstDedupAux] at hx
  | cons h t ih =>
    intro seen x hx
    by_cases hh : h ∈ seen
    · rw [firstDedupAux, if_pos hh] at hx
      exact List.mem_cons_of_mem h (ih seen x hx)
    · rw [firstDedupAux, if_neg hh] at hx
      rcases List.mem_cons.1 hx with rfl | hx
      · exact List.mem_cons_self _ _
      · exact List.mem_cons_of_mem h (ih (h :: seen) x hx)

/-- The whole variable pass, characterized: it appends to the incoming table
exactly the not-yet-bound candidate operands, in first-occurrence order, at
consecutive addresses starting at `next`. -/
theorem find_variables_go_eq (labels : Line → Option Nat) :
    ∀ (ls : List Line) (vars : List (Line × Nat)) (next : Nat),
    find_variables_go labels vars next ls =
      vars ++ assignFrom next (firstDedupAux (vars.map Prod.fst) (opSeq labels ls)) := by
  intro ls
  induction ls with
  | nil => intro vars next; simp [find_variables_go, opSeq, firstDedupAux, assignFrom]
  | cons l t ih =>
    intro vars next
    have hcond : opSeq labels (l :: t) =
        if (startsWith '@' l && !(isDigits (l.drop 1)) && (labels (l.drop 1)).isNone)
        then l.drop 1 :: opSeq labels t
        else opSeq labels t := rfl
    by_cases hat : startsWith '@' l = true
    · by_cases hdig : isDigits (l.drop 1) = true
      · have hc : (startsWith '@' l && !(isDigits (l.drop 1)) &&
            (labels (l.drop 1)).isNone) = false := by
          rw [hdig]
          simp
        have hop : opSeq labels (l :: t) = opSeq labels t := by
          rw [hcond, hc]
          rfl
        rw [hop]
        simp only [find_variables_go, if_pos hat, if_pos hdig]
        exact ih vars next
      · by_cases hlab : (labels (l.drop 1)).isNone = true
        · have hdig' : isDigits (l.drop 1) = false := by simpa using hdig
          have hc : (startsWith '@' l && !(isDigits (l.drop 1)) &&
              (labels (l.drop 1)).isNone) = true := by
            rw [hat, hdig', hlab]
            rfl
          have hop : opSeq labels (l :: t) = l.drop 1 :: opSeq labels t := by
            rw [hcond, hc]
            rfl
          rw [hop]
          by_cases hv : (alookup vars (l.drop 1)).isNone = true
          · have hguard : ((alookup vars (l.drop 1)).isNone && (labels (l.drop 1)).isNone)
                = true := by
              rw [hv, hlab]
              rfl
            have hnm : l.drop 1 ∉ vars.map Prod.fst := by
              rw [Option.isNone_iff_eq_none] at hv
              exact alookup_eq_none.1 hv
            simp only [find_variables_go, if_pos hat, hdig, Bool.false_eq_true, if_false,
              if_pos hguard]
            rw [ih (vars ++ [(l.drop 1, next)]) (next + 1)]
            rw [firstDedupAux, if_neg hnm]
            rw [assignFrom]
            have hseen : ∀ x, x ∈ (vars ++ [(l.drop 1, next)]).map Prod.fst ↔
                x ∈ l.drop 1 :: vars.map Prod.fst := by
              intro x
              simp only [List.map_append, List.map_cons, List.map_nil, List.mem_append,
                List.mem_singleton, List.mem_cons]
              tauto
            rw [firstDedupAux_congr _ _ _ hseen]
            simp
          · have hv' : (alookup vars (l.drop 1)).isNone = false :=
              Bool.not_eq_true _ ▸ hv
            have hguard : ((alookup vars (l.drop 1)).isNone && (labels (l.drop 1)).isNone)
                = false := by
              rw [hv', Bool.false_and]
            have hmem : l.drop 1 ∈ vars.map Prod.fst := by
              rcases hsome : alookup vars (l.drop 1) with _ | v
              · rw [hsome] at hv'
                simp at hv'
              · exact List.mem_map_of_mem Prod.fst (alookup_mem hsome)
            simp only [find_variables_go, if_pos hat, hdig, Bool.false_eq_true, if_false,
              hguard, Bool.false_eq_true, if_false]
            rw [firstDedupAux, if_pos hmem]
            exact ih vars next
        · have hlab' : (labels (l.drop 1)).isNone = false :=
            Bool.not_eq_true _ ▸ hlab
          have hc : (startsWith '@' l && !(isDigits (l.drop 1)) &&
              (labels (l.drop 1)).isNone) = false := by
            rw [hlab']
            simp
          have hop : opSeq labels (l :: t) = opSeq labels t := by
            rw [hcond, hc]
            rfl
          rw [hop]
          have hguard : ((alookup vars (l.drop 1)).isNone && (labels (l.drop 1)).isNone)
              = false := by
            rw [hlab']
            simp
          simp only [find_variables_go, if_pos hat, hdig, Bool.false_eq_true, if_false,
            hguard, Bool.false_eq_true, if_false]
          exact ih vars next
    · have hat' : startsWith '@' l = false := by simpa using hat
      have hc : (startsWith '@' l && !(isDigits (l.drop 1)) &&
          (labels (l.drop 1)).isNone) = false := by
        rw [hat']
        simp
      have hop : opSeq labels (l :: t) = opSeq labels t := by
        rw [hcond, hc]
        rfl
      rw [hop]
      simp only [find_variables_go, hat', Bool.false_eq_true, if_false]
      exact ih vars next

theorem mem_opSeq_labels_none (labels : Line → Option Nat) :
    ∀ (ls : List Line) (x : Line), x ∈ opSeq labels ls → labels x = none := by
  intro ls
  induction ls with
  | nil => intro x hx; simp [opSeq] at hx
  | cons l t ih =>
    intro x hx
    by_cases hc : (startsWith '@' l && !(isDigits (l.drop 1)) &&
        (labels (l.drop 1)).isNone) = true
    · have : opSeq labels (l :: t) = l.drop 1 :: opSeq labels t := by
        show (if (startsWith '@' l && !(isDigits (l.drop 1)) && (labels (l.drop 1)).isNone)
          then l.drop 1 :: opSeq labels t else opSeq labels t) = _
        rw [hc]
        rfl
      rw [this] at hx
      rcases List.mem_cons.1 hx with rfl | hx
      · have h3 : (labels (l.drop 1)).isNone = true := by
          rcases Bool.and_eq_true_iff.1 hc with ⟨_, h3⟩
          exact h3
        exact Option.isNone_iff_eq_none.1 h3
      · exact ih x hx
    · have hcf : (startsWith '@' l && !(isDigits (l.drop 1)) &&
          (labels (l.drop 1)).isNone) = false := Bool.not_eq_true _ ▸ hc
      have : opSeq labels (l :: t) = opSeq labels t := by
        show (if (startsWith '@' l && !(isDigits (l.drop 1)) && (labels (l.drop 1)).isNone)
          then l.drop 1 :: opSeq labels t else opSeq labels t) = _
        rw [hcf]
        rfl
      rw [this] at hx
      exact ih x hx

/-- A binding already present in the variable table survives the variable pass
unchanged (new bindings are only ever appended behind it). -/
theorem find_variables_go_preserves {labels : Line → Option Nat}
    {vars : List (Line × Nat)} {next : Nat} {ls : List Line} {s : Line} {v : Nat}
    (h : alookup vars s = some v) :
    alookup (find_variables_go labels vars next ls) s = some v := by
  rw [find_variables_go_eq]
  exact alookup_append_left h

/-- A symbol bound in the label table is never assigned by the variable pass:
its lookup in the final variable table is whatever it was initially. -/
theorem find_variables_go_label_none {labels : Line → Option Nat}
    {vars : List (Line × Nat)} {next : Nat} {ls : List Line} {s : Line}
    (hv : alookup vars s = none) (hl : (labels s).isSome = true) :
    alookup (find_variables_go labels vars next ls) s = none := by
  rw [find_variables_go_eq, alookup_append_right hv]
  apply alookup_eq_none.2
  rw [assignFrom_map_fst]
  intro hmem
  have hnone : labels s = none :=
    mem_opSeq_labels_none labels ls s (mem_firstDedupAux_sub _ _ _ hmem)
  rw [hnone] at hl
  simp at hl

/-! Lemmas about the parser and the encoder. -/

/-- Resolution of an `@` operand that the variable table binds: the variable
table is consulted first, so its binding wins. -/
theorem parse_line_var {vtable : List (Line × Nat)} {labels : Line → Option Nat}
    {s : Line} {v : Nat} (h : alookup vtable s = some v) :
    parse_line vtable labels ('@' :: s) = some (Instr.A v) := by
  have hs : startsWith '@' ('@' :: s) = true := rfl
  simp only [parse_line, hs, eq_self_iff_true, if_true, List.drop_succ_cons, List.drop_zero]
  rw [h]

/-- Resolution of an `@` operand bound only in the label table. -/
theorem parse_line_label {vtable : List (Line × Nat)} {labels : Line → Option Nat}
    {s : Line} {w : Nat} (hv : alookup vtable s = none) (hl : labels s = some w) :
    parse_line vtable labels ('@' :: s) = some (Instr.A w) := by
  have hs : startsWith '@' ('@' :: s) = true := rfl
  simp only [parse_line, hs, eq_self_iff_true, if_true, List.drop_succ_cons, List.drop_zero]
  rw [hv, hl]

theorem build_intermediary_length {vtable : List (Line × Nat)} {labels : Line → Option Nat} :
    ∀ {ls : List Line} {ins : List Instr},
    build_intermediary vtable labels ls = some ins → ins.length = ls.length := by
  intro ls
  induction ls with
  | nil =>
    intro ins h
    obtain rfl : ([] : List Instr) = ins := Option.some.inj h
    rfl
  | cons l t ih =>
    intro ins h
    rcases hp : parse_line vtable labels l with _ | i
    · rw [build_intermediary, hp] at h
      exact absurd h (by simp)
    · rcases hb : build_intermediary vtable labels t with _ | rest
      · rw [build_intermediary, hp, hb] at h
        exact absurd h (by simp)
      · rw [build_intermediary, hp, hb] at h
        obtain rfl : i :: rest = ins := Option.some.inj h
        simp [ih hb]

theorem assemble_length : ∀ {ins : List Instr} {out : List Line},
    assemble ins = some out → out.length = ins.length := by
  intro ins
  induction ins with
  | nil =>
    intro out h
    obtain rfl : ([] : List Line) = out := Option.some.inj h
    rfl
  | cons i t ih =>
    intro out h
    rcases he : encode_instr i with _ | l
    · rw [assemble, he] at h
      exact absurd h (by simp)
    · rcases hb : assemble t with _ | rest
      · rw [assemble, he, hb] at h
        exact absurd h (by simp)
      · rw [assemble, he, hb] at h
        obtain rfl : l :: rest = out := Option.some.inj h
        simp [ih hb]

theorem assemble_mem : ∀ {ins : List Instr} {out : List Line} {l : Line},
    assemble ins = some out → l ∈ out → ∃ i, i ∈ ins ∧ encode_instr i = some l := by
  intro ins
  induction ins with
  | nil =>
    intro out l h hm
    obtain rfl : ([] : List Line) = out := Option.some.inj h
    simp at hm
  | cons i t ih =>
    intro out l h hm
    rcases he : encode_instr i with _ | el
    · rw [assemble, he] at h
      exact absurd h (by simp)
    · rcases hb : assemble t with _ | rest
      · rw [assemble, he, hb] at h
        exact absurd h (by simp)
      · rw [assemble, he, hb] at h
        obtain rfl : el :: rest = out := Option.some.inj h
        rcases List.mem_cons.1 hm with rfl | hm
        · exact ⟨i, List.mem_cons_self _ _, he⟩
        · obtain ⟨j, hj, hje⟩ := ih hb hm
          exact ⟨j, List.mem_cons_of_mem _ hj, hje⟩

theorem comp_table_entry {k : Option Line} {v : Line} (h : tlookup comp_table k = some v) :
    v.length = 7 ∧ ∀ c ∈ v, c = '0' ∨ c = '1' := by
  have hm := tlookup_mem h
  have : ∀ p ∈ comp_table, p.2.length = 7 ∧ ∀ c ∈ p.2, c = '0' ∨ c = '1' := by decide
  exact this _ hm

theorem dest_table_entry {k : Option Line} {v : Line} (h : tlookup dest_table k = some v) :
    v.length = 3 ∧ ∀ c ∈ v, c = '0' ∨ c = '1' := by
  have hm := tlookup_mem h
  have : ∀ p ∈ dest_table, p.2.length = 3 ∧ ∀ c ∈ p.2, c = '0' ∨ c = '1' := by decide
  exact this _ hm

theorem jump_table_entry {k : Option Line} {v : Line} (h : tlookup jump_table k = some v) :
    v.length = 3 ∧ ∀ c ∈ v, c = '0' ∨ c = '1' := by
  have hm := tlookup_mem h
  have : ∀ p ∈ jump_table, p.2.length = 3 ∧ ∀ c ∈ p.2, c = '0' ∨ c = '1' := by decide
  exact this _ hm

/-- Every successfully encoded instruction whose address operand (if any) fits
in 15 bits is rendered as exactly 16 characters over the alphabet 0/1. -/
theorem encode_instr_shape {i : Instr} {l : Line} (h : encode_instr i = some l)
    (hA : ∀ n, i = Instr.A n → n ≤ 32767) :
    l.length = 16 ∧ ∀ c ∈ l, c = '0' ∨ c = '1' := by
  cases i with
  | A n =>
    obtain rfl : '0' :: get_binary_string n 15 = l := Option.some.inj h
    have hn : n < 2 ^ 15 := by
      have := hA n rfl
      omega
    constructor
    · simp [get_binary_string_length hn]
    · intro c hc
      rcases List.mem_cons.1 hc with rfl | hc
      · exact Or.inl rfl
      · exact get_binary_string_chars hc
  | C d c j =>
    rcases hd : tlookup dest_table d with _ | db
    · rw [encode_instr, hd] at h
      exact absurd h (by simp)
    · rcases hcomp : tlookup comp_table (some c) with _ | cb
      · rw [encode_instr, hd, hcomp] at h
        exact absurd h (by simp)
      · rcases hj : tlookup jump_table j with _ | jb
        · rw [encode_instr, hd, hcomp, hj] at h
          exact absurd h (by simp)
        · rw [encode_instr, hd, hcomp, hj] at h
          obtain rfl : '1' :: '1' :: '1' :: (cb ++ db ++ jb) = l := Option.some.inj h
          obtain ⟨hdl, hdc⟩ := dest_table_entry hd
          obtain ⟨hcl, hcc⟩ := comp_table_entry hcomp
          obtain ⟨hjl, hjc⟩ := jump_table_entry hj
          constructor
          · simp [hdl, hcl, hjl]
          · intro ch hch
            simp only [List.mem_cons, List.mem_append] at hch
            rcases hch with rfl | rfl | rfl | (hch | hch) | hch
            · exact Or.inr rfl
            · exact Or.inr rfl
            · exact Or.inr rfl
            · exact hcc ch hch
            · exact hdc ch hch
            · exact hjc ch hch

/-! The claims. -/

/-- C1 is false as stated: the line `foo` is not an address instruction, is
not a label line, and is not an instance of any of the four recognized
compute-instruction shapes (its comp field is no valid mnemonic), yet the
parser produces an intermediate instruction for it — the line is not skipped;
the run instead aborts later, at encode time. -/
theorem C1_counterexample :
    startsWith '@' (cl "foo") = false ∧
    startsWith '(' (cl "foo") = false ∧
    spec_recognized_shape (cl "foo") = false ∧
    intermediateOf [cl "foo"] = some [Instr.C none (cl "foo") none] ∧
    assembler [cl "foo"] = none := by decide

/-- C1 amended: the parser's four separator-based cases are exhaustive — every
normalized, label-free line that is not an address instruction produces
exactly one intermediate compute instruction, whatever its text; no line is
silently skipped (invalid mnemonics fail later, at encode time). -/
theorem C1_amended_no_skip (vtable : List (Line × Nat)) (labels : Line → Option Nat)
    (l : Line) (h : startsWith '@' l = false) :
    ∃ d c j, parse_line vtable labels l = some (Instr.C d c j) := by
  simp only [parse_line, h, Bool.false_eq_true, if_false]
  rcases h1 : List.findIdx? (fun c => c = '=') l with _ | d <;>
    rcases h2 : List.findIdx? (fun c => c = ';') l with _ | j <;>
    exact ⟨_, _, _, rfl⟩

/-- Witness for C1: the amended claim at the concrete line `foo`. -/
theorem C1_witness :
    startsWith '@' (cl "foo") = false ∧
    (∃ d c j, parse_line predefined_symbols (fun _ => none) (cl "foo") =
      some (Instr.C d c j)) :=
  ⟨by decide, C1_amended_no_skip predefined_symbols (fun _ => none) (cl "foo") (by decide)⟩

/-- C2 is false as stated: on the out-of-range operand `@40000` the run does
not abort — it emits a line of 17 characters. -/
theorem C2_counterexample :
    assembler [cl "@40000"] = some [cl "01001110001000000"] ∧
    (cl "01001110001000000").length = 17 := by decide

/-- C2 amended: an address operand above 32767 is not detected; the encoder
emits `0` followed by the operand's full binary representation, producing a
line of at least 17 characters instead of aborting. -/
theorem C2_amended_overlong (n : Nat) (h : 32767 < n) :
    assemble [Instr.A n] = some ['0' :: get_binary_string n 15] ∧
    17 ≤ ('0' :: get_binary_string n 15).length :=
  ⟨rfl, get_binary_string_length_ge (by omega)⟩

/-- Witness for C2: the amended claim at the concrete operand 40000. -/
theorem C2_witness :
    32767 < 40000 ∧
    (assemble [Instr.A 40000] = some ['0' :: get_binary_string 40000 15] ∧
     17 ≤ ('0' :: get_binary_string 40000 15).length) :=
  ⟨by decide, C2_amended_overlong 40000 (by decide)⟩

/-- C3 is false as stated: on `(R3)` followed by `@R3` the symbol `R3` is in
the label table (bound to 0) and in the variable table (predefined, 3), and
the use resolves to the variable-table binding 3, not the label binding 0 —
the variable table is consulted first, not the label table. -/
theorem C3_counterexample :
    (labelsOf [cl "(R3)", cl "@R3"]) (cl "R3") = some 0 ∧
    alookup (variablesOf [cl "(R3)", cl "@R3"]) (cl "R3") = some 3 ∧
    intermediateOf [cl "(R3)", cl "@R3"] = some [Instr.A 3] := by decide

/-- C3 amended: operand resolution consults the variable table first, so a
symbol present in both the variable table and the label table resolves to its
variable-table binding. -/
theorem C3_amended_vars_first (vtable : List (Line × Nat)) (labels : Line → Option Nat)
    (s : Line) (v w : Nat) (hv : alookup vtable s = some v) (_ : labels s = some w) :
    parse_line vtable labels ('@' :: s) = some (Instr.A v) :=
  parse_line_var hv

/-- Witness for C3: the amended claim at the concrete symbol `R3`, present in
the predefined variable table (3) and in a label table (0). -/
theorem C3_witness :
    alookup predefined_symbols (cl "R3") = some 3 ∧
    (upd (fun _ => none) (cl "R3") 0) (cl "R3") = some 0 ∧
    parse_line predefined_symbols (upd (fun _ => none) (cl "R3") 0) ('@' :: cl "R3") =
      some (Instr.A 3) :=
  ⟨by decide, by decide,
    C3_amended_vars_first predefined_symbols (upd (fun _ => none) (cl "R3") 0)
      (cl "R3") 3 0 (by decide) (by decide)⟩

/-- C5: for every n with 0 ≤ n ≤ 32767, encoding the address instruction @n
yields a line whose first character is 0 and whose remaining 15 characters,
read as an unsigned most-significant-bit-first binary numeral, equal n. -/
theorem C5_roundtrip (n : Nat) (h : n ≤ 32767) :
    assemble [Instr.A n] = some ['0' :: get_binary_string n 15] ∧
    (get_binary_string n 15).length = 15 ∧
    fromBin (get_binary_string n 15) = n :=
  ⟨rfl, get_binary_string_length (by omega), fromBin_get_binary_string n 15⟩

/-- Witness for C5: the round trip at the concrete operand 21845. -/
theorem C5_witness :
    21845 ≤ 32767 ∧
    (assemble [Instr.A 21845] = some ['0' :: get_binary_string 21845 15] ∧
     (get_binary_string 21845 15).length = 15 ∧
     fromBin (get_binary_string 21845 15) = 21845) :=
  ⟨by decide, C5_roundtrip 21845 (by decide)⟩

/-- C9: the translation is a deterministic function of the input text — two
runs on the same input produce identical output (the embedding is a pure
function, faithfully: the source iterates only over lists, never over an
unordered structure, and starts each run from fresh tables). -/
theorem C9_deterministic (c₁ c₂ : List Line) (h : c₁ = c₂) :
    get_machine_code c₁ = get_machine_code c₂ := by rw [h]

/-- Witness for C9: two runs on the concrete example program coincide. -/
theorem C9_witness :
    ([cl "@2", cl "D=A"] : List Line) = [cl "@2", cl "D=A"] ∧
    get_machine_code [cl "@2", cl "D=A"] = get_machine_code [cl "@2", cl "D=A"] :=
  ⟨rfl, C9_deterministic [cl "@2", cl "D=A"] [cl "@2", cl "D=A"] rfl⟩

/-- C10: a normalized line whose first character is `(` is treated as a label
declaration named by the line minus its first and last characters — whether or
not it ends with `)` — it gets a binding in the label table, and it is removed
from the working sequence, never reaching the parser or encoder. -/
theorem C10_label_stripping (ls : List Line) (l : Line) (hm : l ∈ ls)
    (hl : startsWith '(' l = true) :
    (((find_labels ls).1) (stripEnds l)).isSome = true ∧
    (find_labels ls).2 = ls.filter (fun x => !(startsWith '(' x)) ∧
    l ∉ (find_labels ls).2 := by
  have h2 : (find_labels ls).2 = ls.filter (fun x => !(startsWith '(' x)) :=
    find_labels_go_snd ls 0 (fun _ => none)
  refine ⟨find_labels_go_decl_isSome ls 0 (fun _ => none) l hm hl, h2, ?_⟩
  rw [h2]
  intro hmem
  have := List.of_mem_filter hmem
  rw [hl] at this
  simp at this

/-- Witness for C10: the line `(LOOP` (no closing parenthesis) declares the
label `LOO` and is removed from the working sequence. -/
theorem C10_witness :
    (cl "(LOOP") ∈ [cl "(LOOP", cl "D"] ∧
    startsWith '(' (cl "(LOOP") = true ∧
    ((((find_labels [cl "(LOOP", cl "D"]).1) (stripEnds (cl "(LOOP"))).isSome = true ∧
     (find_labels [cl "(LOOP", cl "D"]).2 =
       ([cl "(LOOP", cl "D"]).filter (fun x => !(startsWith '(' x)) ∧
     (cl "(LOOP") ∉ (find_labels [cl "(LOOP", cl "D"]).2) :=
  ⟨by decide, by decide,
    C10_label_stripping [cl "(LOOP", cl "D"] (cl "(LOOP") (by decide) (by decide)⟩

/-- C4 is false as stated: on the program `@32768` the assembler emits one
output line of 17 characters, not 16 (the operand does not fit in 15 bits and
no check catches it). -/
theorem C4_counterexample :
    assembler [cl "@32768"] = some [cl "01000000000000000"] ∧
    (cl "01000000000000000").length = 17 := by decide

/-- C4 amended: provided assembly succeeds (all mnemonics recognized) and
every address operand fits in 15 bits, each output line is exactly 16
characters over 0/1 and the number of output lines equals the number of
normalized statements that are not label declarations (comment-only and blank
lines having already been dropped by normalization). -/
theorem C4_amended_output_shape (code : List Line) (ins : List Instr) (out : List Line)
    (hins : intermediateOf code = some ins)
    (hbound : ∀ i ∈ ins, addrFits i = true)
    (hout : assembler code = some out) :
    (∀ l ∈ out, l.length = 16 ∧ ∀ c ∈ l, c = '0' ∨ c = '1') ∧
    out.length =
      ((remove_unnecessary code).filter (fun l => !(startsWith '(' l))).length := by
  have hasm : assemble ins = some out := by
    simp only [assembler] at hout
    rw [hins] at hout
    simpa using hout
  constructor
  · intro l hl
    obtain ⟨i, hi, he⟩ := assemble_mem hasm hl
    apply encode_instr_shape he
    intro n hn
    have hfit := hbound i hi
    rw [hn] at hfit
    simpa [addrFits] using hfit
  · have h1 := assemble_length hasm
    have h2 := @build_intermediary_length (variablesOf code) (labelsOf code)
      (labelFreeOf code) ins hins
    have h3 : labelFreeOf code =
        (remove_unnecessary code).filter (fun l => !(startsWith '(' l)) :=
      find_labels_go_snd (remove_unnecessary code) 0 (fun _ => none)
    rw [h1, h2, h3]

/-- Witness for C4: the amended claim at the specification's six-line example
program. -/
theorem C4_witness :
    intermediateOf [cl "@2", cl "D=A", cl "@3", cl "D=D+A", cl "@0", cl "M=D"] =
      some [Instr.A 2, Instr.C (some (cl "D")) (cl "A") none, Instr.A 3,
        Instr.C (some (cl "D")) (cl "D+A") none, Instr.A 0,
        Instr.C (some (cl "M")) (cl "D") none] ∧
    assembler [cl "@2", cl "D=A", cl "@3", cl "D=D+A", cl "@0", cl "M=D"] =
      some [cl "0000000000000010", cl "1110110000010000", cl "0000000000000011",
        cl "1110000010010000", cl "0000000000000000", cl "1110001100001000"] ∧
    ((∀ l ∈ [cl "0000000000000010", cl "1110110000010000", cl "0000000000000011",
        cl "1110000010010000", cl "0000000000000000", cl "1110001100001000"],
        l.length = 16 ∧ ∀ c ∈ l, c = '0' ∨ c = '1') ∧
      ([cl "0000000000000010", cl "1110110000010000", cl "0000000000000011",
        cl "1110000010010000", cl "0000000000000000", cl "1110001100001000"]).length =
        ((remove_unnecessary [cl "@2", cl "D=A", cl "@3", cl "D=D+A", cl "@0", cl "M=D"]).filter
          (fun l => !(startsWith '(' l))).length) :=
  ⟨by decide, by decide,
    C4_amended_output_shape [cl "@2", cl "D=A", cl "@3", cl "D=D+A", cl "@0", cl "M=D"]
      [Instr.A 2, Instr.C (some (cl "D")) (cl "A") none, Instr.A 3,
        Instr.C (some (cl "D")) (cl "D+A") none, Instr.A 0,
        Instr.C (some (cl "M")) (cl "D") none]
      [cl "0000000000000010", cl "1110110000010000", cl "0000000000000011",
        cl "1110000010010000", cl "0000000000000000", cl "1110001100001000"]
      (by decide) (by decide) (by decide)⟩

/-- C6 is false as stated: on `(SCREEN)` / `@SCREEN` / `0;JMP` the label
`SCREEN` is bound to instruction index 0, but the use `@SCREEN` resolves to
16384 (the predefined binding, because the variable table is consulted first),
not to the label's index. -/
theorem C6_counterexample :
    (labelsOf [cl "(SCREEN)", cl "@SCREEN", cl "0;JMP"]) (cl "SCREEN") = some 0 ∧
    intermediateOf [cl "(SCREEN)", cl "@SCREEN", cl "0;JMP"] =
      some [Instr.A 16384, Instr.C none (cl "0") (some (cl "JMP"))] := by decide

/-- C6 amended: for every label declared exactly once whose name is not a
predefined symbol, the label is bound to the instruction index of the next
real instruction following the declaration (declaration lines do not increment
the index), and a use of the label resolves to that index — position-
independently, hence whether the use appears before or after the declaration. -/
theorem C6_amended_label_binding (code : List Line) (i : Nat) (l L : Line)
    (hg : (remove_unnecessary code).get? i = some l)
    (hl : startsWith '(' l = true)
    (hs : stripEnds l = L)
    (huniq : (remove_unnecessary code).countP (declOf L) = 1)
    (hpre : alookup predefined_symbols L = none) :
    labelsOf code L =
      some (((remove_unnecessary code).take i).countP (fun x => !(startsWith '(' x))) ∧
    parse_line (variablesOf code) (labelsOf code) ('@' :: L) =
      some (Instr.A (((remove_unnecessary code).take i).countP
        (fun x => !(startsWith '(' x)))) := by
  have hlab : labelsOf code L =
      some (((remove_unnecessary code).take i).countP (fun x => !(startsWith '(' x))) := by
    have := find_labels_go_unique_decl (remove_unnecessary code) i 0 (fun _ => none)
      l L hg hl hs huniq
    simpa using this
  refine ⟨hlab, ?_⟩
  have hvar : alookup (variablesOf code) L = none := by
    apply find_variables_go_label_none hpre
    rw [hlab]
    rfl
  exact parse_line_label hvar hlab

/-- Witness for C6: the forward reference `@LOOP … (LOOP)` resolves `LOOP` to
instruction index 2, the index of the instruction following the declaration. -/
theorem C6_witness :
    (remove_unnecessary [cl "@LOOP", cl "0;JMP", cl "(LOOP)", cl "D"]).get? 2 =
      some (cl "(LOOP)") ∧
    startsWith '(' (cl "(LOOP)") = true ∧
    stripEnds (cl "(LOOP)") = cl "LOOP" ∧
    (remove_unnecessary [cl "@LOOP", cl "0;JMP", cl "(LOOP)", cl "D"]).countP
      (declOf (cl "LOOP")) = 1 ∧
    alookup predefined_symbols (cl "LOOP") = none ∧
    (labelsOf [cl "@LOOP", cl "0;JMP", cl "(LOOP)", cl "D"] (cl "LOOP") = some 2 ∧
     parse_line (variablesOf [cl "@LOOP", cl "0;JMP", cl "(LOOP)", cl "D"])
       (labelsOf [cl "@LOOP", cl "0;JMP", cl "(LOOP)", cl "D"])
       ('@' :: cl "LOOP") = some (Instr.A 2)) :=
  ⟨by decide, by decide, by decide, by decide, by decide,
    C6_amended_label_binding [cl "@LOOP", cl "0;JMP", cl "(LOOP)", cl "D"] 2
      (cl "(LOOP)") (cl "LOOP") (by decide) (by decide) (by decide) (by decide) (by decide)⟩

/-- C7: the user-declared variables are exactly the first occurrences of the
eligible operands (non-digit `@` operands with no label binding and no
existing table binding), in first-occurrence order, at strictly increasing
addresses 16, 17, 18, …; a symbol bound in the label table or already in the
variable table (predefined symbols included) is never assigned an address. -/
theorem C7_variable_allocation (code : List Line) :
    ((variablesOf code).drop predefined_symbols.length).map Prod.snd =
      List.range' 16 ((variablesOf code).drop predefined_symbols.length).length ∧
    (∀ p ∈ (variablesOf code).drop predefined_symbols.length,
      labelsOf code p.1 = none ∧ alookup predefined_symbols p.1 = none) ∧
    ((variablesOf code).drop predefined_symbols.length).map Prod.fst =
      firstDedupAux (predefined_symbols.map Prod.fst)
        (opSeq (labelsOf code) (labelFreeOf code)) := by
  have hm : variablesOf code = predefined_symbols ++
      assignFrom 16 (firstDedupAux (predefined_symbols.map Prod.fst)
        (opSeq (labelsOf code) (labelFreeOf code))) :=
    find_variables_go_eq (labelsOf code) (labelFreeOf code) predefined_symbols 16
  have hdrop : (variablesOf code).drop predefined_symbols.length =
      assignFrom 16 (firstDedupAux (predefined_symbols.map Prod.fst)
        (opSeq (labelsOf code) (labelFreeOf code))) := by
    rw [hm, List.drop_left]
  rw [hdrop]
  refine ⟨?_, ?_, assignFrom_map_fst 16 _⟩
  · rw [assignFrom_map_snd, assignFrom_length]
  · intro p hp
    have hfst : p.1 ∈ firstDedupAux (predefined_symbols.map Prod.fst)
        (opSeq (labelsOf code) (labelFreeOf code)) := by
      rw [← assignFrom_map_fst 16 (firstDedupAux (predefined_symbols.map Prod.fst)
        (opSeq (labelsOf code) (labelFreeOf code)))]
      exact List.mem_map_of_mem Prod.fst hp
    constructor
    · exact mem_opSeq_labels_none (labelsOf code) (labelFreeOf code) p.1
        (mem_firstDedupAux_sub _ _ _ hfst)
    · exact alookup_eq_none.2 (mem_firstDedupAux_not_seen _ _ _ hfst)

/-- C8: predefined symbol bindings are immutable for the run — they survive
into the final variable table unchanged, an address-instruction use of such a
symbol resolves to the predefined address, and no variable slot is ever
allocated for it. -/
theorem C8_predefined_immutable (code : List Line) (s : Line) (v : Nat)
    (h : alookup predefined_symbols s = some v) :
    alookup (variablesOf code) s = some v ∧
    parse_line (variablesOf code) (labelsOf code) ('@' :: s) = some (Instr.A v) ∧
    ∀ n, (s, n) ∉ (variablesOf code).drop predefined_symbols.length := by
  have h1 : alookup (variablesOf code) s = some v := find_variables_go_preserves h
  refine ⟨h1, parse_line_var h1, ?_⟩
  intro n hmem
  have hm : variablesOf code = predefined_symbols ++
      assignFrom 16 (firstDedupAux (predefined_symbols.map Prod.fst)
        (opSeq (labelsOf code) (labelFreeOf code))) :=
    find_variables_go_eq (labelsOf code) (labelFreeOf code) predefined_symbols 16
  rw [hm, List.drop_left] at hmem
  have hfst : s ∈ firstDedupAux (predefined_symbols.map Prod.fst)
      (opSeq (labelsOf code) (labelFreeOf code)) := by
    rw [← assignFrom_map_fst 16 (firstDedupAux (predefined_symbols.map Prod.fst)
      (opSeq (labelsOf code) (labelFreeOf code)))]
    exact List.mem_map_of_mem Prod.fst hmem
  exact mem_firstDedupAux_not_seen _ _ _ hfst
    (List.mem_map_of_mem Prod.fst (alookup_mem h))

/-- Witness for C8: `@R3` on a program that uses it resolves to 3 and
allocates nothing. -/
theorem C8_witness :
    alookup predefined_symbols (cl "R3") = some 3 ∧
    (alookup (variablesOf [cl "@R3"]) (cl "R3") = some 3 ∧
     parse_line (variablesOf [cl "@R3"]) (labelsOf [cl "@R3"]) ('@' :: cl "R3") =
       some (Instr.A 3) ∧
     ∀ n, (cl "R3", n) ∉ (variablesOf [cl "@R3"]).drop predefined_symbols.length) :=
  ⟨by decide, C8_predefined_immutable [cl "@R3"] (cl "R3") 3 (by decide)⟩

end Hack
